import Mathlib

/-!
Shallow embedding of the core logic of `src/app.py` (PDF table extractor).

The embedded functions are:
* `normalize_text`  — `' '.join(text.lower().split())` (app.py line 12),
  modelled on `List Char`: ASCII lowercasing, splitting on whitespace runs,
  rejoining with single spaces.
* `find_pages_with_keywords` — the page loop of app.py lines 20–25: pages are
  given as their already-extracted texts (PyMuPDF text extraction is an
  external collaborator), page numbers are 1-based in document order.
* `contains_numbers_and_text` — app.py lines 27–31: a grid (DataFrame) has
  some cell containing a decimal digit and some cell containing an ASCII
  letter.  `any` over a grid is order-independent, so the column-wise
  `df.apply(axis=0) ... .any()` of the source is embedded as `any` over rows
  of `any` over cells.
* `normalizeColumn` — the column loop of app.py lines 94–97:
  `cleaned = col.str.replace(',', '').str.strip()`,
  `numeric = pd.to_numeric(cleaned, errors='coerce')`,
  `col = numeric.fillna(cleaned)`.
  `pd.to_numeric(..., errors='coerce')` maps each cell independently to a
  number or to NaN, and `fillna` replaces exactly the NaN positions with the
  cleaned strings, so the embedding is a per-cell map.  Numbers are modelled
  as `ℚ` (the values under study are exactly representable); the numeric
  parser accepts standard decimal literals with an optional sign, the empty
  string failing to parse.

Strings are modelled as `List Char`; whitespace is the ASCII whitespace set
recognised by Python's `str.split()` / `str.strip()`.
-/

namespace PdfTry

/-- Whitespace as recognised by Python `str.split()` / `str.strip()`
(ASCII part: space, tab, newline, carriage return, vertical tab, form feed). -/
def isWs (c : Char) : Bool :=
  c.toNat = 32 || c.toNat = 9 || c.toNat = 10 || c.toNat = 13 ||
  c.toNat = 11 || c.toNat = 12

/-- Prepend a character to the first word of a word list (helper for `words`). -/
def consWord (c : Char) : List (List Char) → List (List Char)
  | [] => [[c]]
  | w :: ws => (c :: w) :: ws

/-- Python `str.split()` with no argument: the maximal runs of
non-whitespace characters, in order; whitespace runs separate words and
produce no empty words. -/
def words : List Char → List (List Char)
  | [] => []
  | [c] => if isWs c then [] else [[c]]
  | c :: d :: cs =>
    if isWs c then words (d :: cs)
    else if isWs d then [c] :: words cs
    else consWord c (words (d :: cs))

/-- Python `' '.join(ws)`: concatenate the words with a single space between
consecutive words. -/
def joinSp : List (List Char) → List Char
  | [] => []
  | [w] => w
  | w :: x :: ws => w ++ ' ' :: joinSp (x :: ws)

/-- `normalize_text` (app.py line 12): `' '.join(text.lower().split())`. -/
def normalize_text (t : List Char) : List Char :=
  joinSp (words (t.map Char.toLower))

/-- Does the haystack begin with the needle?  (First argument: needle.) -/
def startsWith : List Char → List Char → Bool
  | [], _ => true
  | _ :: _, [] => false
  | a :: as, b :: bs => a == b && startsWith as bs

/-- Python's substring test `needle in hay`. -/
def hasSub (needle : List Char) : List Char → Bool
  | [] => startsWith needle []
  | c :: cs => startsWith needle (c :: cs) || hasSub needle cs

/-- `find_pages_with_keywords` (app.py lines 14–25), with the PDF already
decoded to its per-page texts (in document order).  The source iterates
`enumerate(doc, start=1)` and appends `page_num` whenever every keyword,
lowercased, occurs in the normalized page text; this is the same list as
filtering the 0-based indices and shifting by one. -/
def find_pages_with_keywords (pages : List (List Char))
    (keywords : List (List Char)) : List Nat :=
  ((List.range pages.length).filter (fun i =>
      keywords.all (fun k =>
        hasSub (k.map Char.toLower) (normalize_text (pages.getD i []))))).map
    (fun i => i + 1)

/-- `contains_numbers_and_text` (app.py lines 27–31): the grid has some cell
containing a decimal digit (regex `\d`) and some cell containing an ASCII
letter (regex `[A-Za-z]`).  The grid is the list of rows of string cells. -/
def contains_numbers_and_text (df : List (List (List Char))) : Bool :=
  (df.any fun row => row.any fun cell => cell.any Char.isDigit) &&
  (df.any fun row => row.any fun cell => cell.any Char.isAlpha)

/-- `str.strip()`: drop leading and trailing whitespace. -/
def trimWs (s : List Char) : List Char :=
  ((s.dropWhile (fun c => isWs c)).reverse.dropWhile (fun c => isWs c)).reverse

/-- The cleaning step of app.py line 95:
`.str.replace(',', '').str.strip()` — remove every comma, then trim. -/
def cleanCell (s : List Char) : List Char :=
  trimWs (s.filter (fun c => c != ','))

/-- Numeric value of a digit string (most significant digit first). -/
def digitsVal (l : List Char) : Nat :=
  l.foldl (fun a c => 10 * a + (c.toNat - 48)) 0

/-- Unsigned part of the numeric parser behind `pd.to_numeric`: a standard
decimal literal — digits, optionally followed by a point and digits, with at
least one digit present.  The empty string fails. -/
def parseUnsigned (s : List Char) : Option ℚ :=
  let intPart := s.takeWhile Char.isDigit
  let rest := s.dropWhile Char.isDigit
  match rest with
  | [] => if intPart.isEmpty then none else some (digitsVal intPart : ℚ)
  | '.' :: frac =>
    if frac.all Char.isDigit && !(intPart.isEmpty && frac.isEmpty) then
      some ((digitsVal intPart : ℚ) +
        (digitsVal frac : ℚ) / (10 : ℚ) ^ frac.length)
    else none
  | _ => none

/-- The numeric parse performed by `pd.to_numeric(cell, errors='coerce')` on
one cell (app.py line 96), restricted to standard decimal and signed numeric
literal syntax: an optional sign followed by a decimal literal.  `none` is
the NaN outcome. -/
def parseNum (s : List Char) : Option ℚ :=
  match s with
  | '-' :: rest => (parseUnsigned rest).map (fun q => -q)
  | '+' :: rest => parseUnsigned rest
  | _ => parseUnsigned s

/-- A spreadsheet cell after the column loop: either a (cleaned) string or a
number. -/
inductive Value where
  | str : List Char → Value
  | num : ℚ → Value
  deriving DecidableEq

/-- The column loop of app.py lines 94–97 on one column:
clean every cell, coerce each cleaned cell to a number (`errors='coerce'`
gives NaN on failure), then `fillna` the failures with the cleaned strings.
The composite effect per cell: parse result if it parses, cleaned string
otherwise. -/
def normalizeColumn (col : List (List Char)) : List Value :=
  col.map fun s =>
    match parseNum (cleanCell s) with
    | some q => Value.num q
    | none => Value.str (cleanCell s)

/- ------------------------------------------------------------------ -/
/- Helper lemmas -/
/- ------------------------------------------------------------------ -/

theorem toNat_ofNat_valid {n : Nat} (h : n.isValidChar) :
    (Char.ofNat n).toNat = n := by
  rw [Char.ofNat, dif_pos h]; rfl

theorem toLower_toNat_of_upper {c : Char} (h : 65 ≤ c.toNat)
    (h2 : c.toNat ≤ 90) : (c.toLower).toNat = c.toNat + 32 := by
  rw [Char.toLower]
  simp only [ge_iff_le]
  rw [if_pos ⟨h, h2⟩]
  exact toNat_ofNat_valid (Or.inl (by omega))

theorem toLower_eq_self {c : Char} (h : ¬ (65 ≤ c.toNat ∧ c.toNat ≤ 90)) :
    c.toLower = c := by
  rw [Char.toLower]
  simp only [ge_iff_le]
  rw [if_neg h]

theorem toLower_toLower (c : Char) : c.toLower.toLower = c.toLower := by
  by_cases h : 65 ≤ c.toNat ∧ c.toNat ≤ 90
  · have h1 := toLower_toNat_of_upper h.1 h.2
    exact toLower_eq_self (by omega)
  · simp only [toLower_eq_self h]

theorem isWs_toLower (c : Char) : isWs c.toLower = isWs c := by
  by_cases h : 65 ≤ c.toNat ∧ c.toNat ≤ 90
  · obtain ⟨ha, hb⟩ := h
    have h1 := toLower_toNat_of_upper ha hb
    have hL : isWs c.toLower = false := by simp [isWs, h1]; omega
    have hR : isWs c = false := by simp [isWs]; omega
    rw [hL, hR]
  · rw [toLower_eq_self h]

theorem words_wf (l : List Char) :
    ∀ w ∈ words l, w ≠ [] ∧ ∀ c ∈ w, isWs c = false := by
  induction l using words.induct with
  | case1 => intro w hw; simp [words] at hw
  | case2 c h => intro w hw; simp [words, h] at hw
  | case3 c h =>
    intro w hw
    simp [words, h] at hw
    subst hw
    exact ⟨by simp, by intro c' hc'; simp at hc'; subst hc'; simpa using h⟩
  | case4 c d cs h ih =>
    intro w hw
    rw [words, if_pos h] at hw
    exact ih w hw
  | case5 c d cs hc hd ih =>
    intro w hw
    rw [words, if_neg hc, if_pos hd] at hw
    rcases List.mem_cons.mp hw with hw | hw
    · subst hw
      exact ⟨by simp, by intro c' hc'; simp at hc'; subst hc'; simpa using hc⟩
    · exact ih w hw
  | case6 c d cs hc hd ih =>
    intro w hw
    rw [words, if_neg hc, if_neg hd] at hw
    rcases hW : words (d :: cs) with _ | ⟨w0, ws⟩
    · rw [hW] at hw
      simp [consWord] at hw
      subst hw
      exact ⟨by simp, by intro c' hc'; simp at hc'; subst hc'; simpa using hc⟩
    · rw [hW] at hw
      simp only [consWord, List.mem_cons] at hw
      rcases hw with hw | hw
      · subst hw
        have h0 := ih w0 (by rw [hW]; exact List.mem_cons_self _ _)
        refine ⟨by simp, ?_⟩
        intro c' hc'
        rcases List.mem_cons.mp hc' with h' | h'
        · subst h'; simpa using hc
        · exact h0.2 c' h'
      · exact ih w (by rw [hW]; exact List.mem_cons_of_mem _ hw)

theorem consWord_map_toLower (c : Char) (W : List (List Char)) :
    consWord c.toLower (W.map (List.map Char.toLower)) =
      (consWord c W).map (List.map Char.toLower) := by
  cases W <;> simp [consWord]

theorem words_map_toLower (l : List Char) :
    words (l.map Char.toLower) = (words l).map (List.map Char.toLower) := by
  induction l using words.induct with
  | case1 => simp [words]
  | case2 c h =>
    simp only [List.map_cons, List.map_nil]
    rw [words, if_pos (by rwa [isWs_toLower]), words, if_pos h]
    simp
  | case3 c h =>
    simp only [List.map_cons, List.map_nil]
    rw [words, if_neg (by rwa [isWs_toLower]), words, if_neg h]
    simp
  | case4 c d cs h ih =>
    simp only [List.map_cons] at *
    rw [words, if_pos (by rwa [isWs_toLower]), words, if_pos h, ih]
  | case5 c d cs hc hd ih =>
    simp only [List.map_cons] at *
    rw [words, if_neg (by rwa [isWs_toLower]), if_pos (by rwa [isWs_toLower]),
        words, if_neg hc, if_pos hd, ih]
    simp
  | case6 c d cs hc hd ih =>
    simp only [List.map_cons] at *
    rw [words, if_neg (by rwa [isWs_toLower]), if_neg (by rwa [isWs_toLower]),
        words, if_neg hc, if_neg hd, ih, consWord_map_toLower]

theorem words_of_word (w : List Char) (hne : w ≠ [])
    (hws : ∀ c ∈ w, isWs c = false) : words w = [w] := by
  induction w with
  | nil => exact absurd rfl hne
  | cons c w' ih =>
    cases w' with
    | nil =>
      rw [words, if_neg (by simp [hws c (List.mem_cons_self _ _)])]
    | cons d cs =>
      have hc : isWs c = false := hws c (List.mem_cons_self _ _)
      have hd : isWs d = false := hws d (by simp)
      rw [words, if_neg (by simp [hc]), if_neg (by simp [hd]),
          ih (by simp) (fun c' hc' => hws c' (List.mem_cons_of_mem _ hc'))]
      simp [consWord]

theorem words_append_space (w rest : List Char) (hne : w ≠ [])
    (hws : ∀ c ∈ w, isWs c = false) :
    words (w ++ ' ' :: rest) = w :: words rest := by
  induction w with
  | nil => exact absurd rfl hne
  | cons c w' ih =>
    cases w' with
    | nil =>
      have hc : isWs c = false := hws c (List.mem_cons_self _ _)
      simp only [List.cons_append, List.nil_append]
      rw [words, if_neg (by simp [hc]), if_pos (by simp [isWs])]
    | cons d cs =>
      have hc : isWs c = false := hws c (List.mem_cons_self _ _)
      have hd : isWs d = false := hws d (by simp)
      simp only [List.cons_append] at *
      rw [words, if_neg (by simp [hc]), if_neg (by simp [hd]),
          ih (by simp) (fun c' hc' => hws c' (List.mem_cons_of_mem _ hc'))]
      simp [consWord]

theorem words_joinSp (W : List (List Char))
    (h : ∀ w ∈ W, w ≠ [] ∧ ∀ c ∈ w, isWs c = false) :
    words (joinSp W) = W := by
  induction W with
  | nil => simp [joinSp, words]
  | cons w W' ih =>
    cases W' with
    | nil =>
      have hw := h w (List.mem_cons_self _ _)
      rw [joinSp, words_of_word w hw.1 hw.2]
    | cons x ws =>
      have hw := h w (List.mem_cons_self _ _)
      rw [joinSp, words_append_space w _ hw.1 hw.2,
          ih (fun w' hw' => h w' (List.mem_cons_of_mem _ hw'))]

theorem map_toLower_joinSp (W : List (List Char)) :
    (joinSp W).map Char.toLower = joinSp (W.map (List.map Char.toLower)) := by
  induction W with
  | nil => simp [joinSp]
  | cons w W' ih =>
    cases W' with
    | nil => simp [joinSp]
    | cons x ws =>
      have hsp : Char.toLower ' ' = ' ' := by decide
      simp only [List.map_cons, joinSp, List.map_append, hsp]
      rw [ih]
      simp [joinSp]

theorem map_map_toLower (l : List Char) :
    (l.map Char.toLower).map Char.toLower = l.map Char.toLower := by
  rw [List.map_map]
  exact List.map_congr_left (fun c _ => toLower_toLower c)

theorem words_of_all_ws (l : List Char) (h : ∀ c ∈ l, isWs c = true) :
    words l = [] := by
  induction l using words.induct with
  | case1 => rfl
  | case2 c hc => rw [words, if_pos hc]
  | case3 c hc => exact absurd (h c (by simp)) (by simpa using hc)
  | case4 c d cs hc ih =>
    rw [words, if_pos hc]
    exact ih (fun c' hc' => h c' (List.mem_cons_of_mem _ hc'))
  | case5 c d cs hc _ _ => exact absurd (h c (by simp)) (by simpa using hc)
  | case6 c d cs hc _ _ => exact absurd (h c (by simp)) (by simpa using hc)

theorem startsWith_iff (n h : List Char) :
    startsWith n h = true ↔ ∃ r, h = n ++ r := by
  induction n generalizing h with
  | nil => simp [startsWith]
  | cons a as ih =>
    cases h with
    | nil => simp [startsWith]
    | cons b bs =>
      rw [startsWith]
      simp only [Bool.and_eq_true, beq_iff_eq, ih]
      constructor
      · rintro ⟨rfl, r, rfl⟩; exact ⟨r, rfl⟩
      · rintro ⟨r, hr⟩
        rw [List.cons_append] at hr
        injection hr with h1 h2
        exact ⟨h1.symm, r, h2⟩

theorem hasSub_iff (n h : List Char) :
    hasSub n h = true ↔ ∃ l r, h = l ++ n ++ r := by
  induction h with
  | nil =>
    rw [hasSub, startsWith_iff]
    constructor
    · rintro ⟨r, hr⟩
      exact ⟨[], r, by simpa using hr⟩
    · rintro ⟨l, r, hr⟩
      rcases List.append_eq_nil.mp (List.append_eq_nil.mp hr.symm).1 with ⟨_, h2⟩
      exact ⟨r, by simp_all⟩
  | cons c cs ih =>
    rw [hasSub, Bool.or_eq_true, startsWith_iff, ih]
    constructor
    · rintro (⟨r, hr⟩ | ⟨l, r, hr⟩)
      · exact ⟨[], r, by simpa using hr⟩
      · exact ⟨c :: l, r, by simp [hr]⟩
    · rintro ⟨l, r, hr⟩
      cases l with
      | nil => exact Or.inl ⟨r, by simpa using hr⟩
      | cons x xs =>
        right
        rw [List.cons_append, List.cons_append] at hr
        injection hr with h1 h2
        exact ⟨xs, r, h2⟩

theorem hasSub_nil_true (h : List Char) : hasSub [] h = true := by
  cases h <;> simp [hasSub, startsWith]

theorem contains_numbers_and_text_iff (df : List (List (List Char))) :
    contains_numbers_and_text df = true ↔
      (∃ row ∈ df, ∃ cell ∈ row, ∃ c ∈ cell, c.isDigit = true) ∧
      (∃ row ∈ df, ∃ cell ∈ row, ∃ c ∈ cell, c.isAlpha = true) := by
  simp [contains_numbers_and_text, List.any_eq_true]

theorem getD_normalizeColumn (col : List (List Char)) (i : Nat)
    (h : i < col.length) :
    (normalizeColumn col).getD i (Value.str []) =
      (match parseNum (cleanCell (col.getD i [])) with
        | some q => Value.num q
        | none => Value.str (cleanCell (col.getD i []))) := by
  unfold normalizeColumn
  rw [List.getD_eq_getElem?_getD, List.getElem?_map,
      List.getElem?_eq_getElem h]
  simp [List.getD_eq_getElem?_getD, List.getElem?_eq_getElem h]

/- ------------------------------------------------------------------ -/
/- Claim theorems -/
/- ------------------------------------------------------------------ -/

/-- C1 counterexample: on the column `["1,200", "N/A", "500"]` the cleaned
cell `"N/A"` fails to parse, yet the column loop still converts the cells
`"1,200"` and `"500"` to the numbers 1200 and 500 — the result is not the
all-strings column the claim demands, so normalization is not
all-or-nothing. -/
theorem C1_counterexample :
    parseNum (cleanCell "N/A".toList) = none ∧
    normalizeColumn ["1,200".toList, "N/A".toList, "500".toList] =
      [Value.num 1200, Value.str "N/A".toList, Value.num 500] ∧
    normalizeColumn ["1,200".toList, "N/A".toList, "500".toList] ≠
      [Value.str "1200".toList, Value.str "N/A".toList,
        Value.str "500".toList] := by
  refine ⟨by decide, by decide, by decide⟩

/-- C1 (amended): column normalization is per-cell, not all-or-nothing.  At
every position of the column, a cell whose cleaned string fails to parse
keeps the cleaned string, and a cell whose cleaned string parses becomes the
parsed numeric value — even when other cells of the same column fail to
parse. -/
theorem C1_normalizeColumn_per_cell (col : List (List Char)) (i : Nat)
    (h : i < col.length) :
    (parseNum (cleanCell (col.getD i [])) = none →
      (normalizeColumn col).getD i (Value.str []) =
        Value.str (cleanCell (col.getD i []))) ∧
    (∀ q, parseNum (cleanCell (col.getD i [])) = some q →
      (normalizeColumn col).getD i (Value.str []) = Value.num q) := by
  constructor
  · intro hp
    rw [getD_normalizeColumn col i h, hp]
  · intro q hp
    rw [getD_normalizeColumn col i h, hp]

/-- C1 witness: the amended theorem applied to the column
`["1,200", "N/A", "500"]` at position 1, whose cleaned cell `"N/A"` fails to
parse and therefore stays a cleaned string. -/
theorem C1_witness :
    (normalizeColumn ["1,200".toList, "N/A".toList, "500".toList]).getD 1
      (Value.str []) = Value.str "N/A".toList :=
  (C1_normalizeColumn_per_cell ["1,200".toList, "N/A".toList, "500".toList] 1
    (by decide)).1 (by decide)

/-- C2: a page number is returned by `find_pages_with_keywords` exactly when
it is a valid 1-based page number and every keyword, lowercased, occurs as a
substring of the page's normalized text (lowercased, whitespace runs
collapsed to single spaces). -/
theorem C2_mem_find_pages (pages keywords : List (List Char)) (n : Nat) :
    n ∈ find_pages_with_keywords pages keywords ↔
      1 ≤ n ∧ n ≤ pages.length ∧
      ∀ k ∈ keywords, ∃ l r,
        normalize_text (pages.getD (n - 1) []) = l ++ k.map Char.toLower ++ r := by
  unfold find_pages_with_keywords
  simp only [List.mem_map, List.mem_filter, List.mem_range, List.all_eq_true,
    hasSub_iff]
  constructor
  · rintro ⟨i, ⟨hi, hall⟩, rfl⟩
    refine ⟨by omega, by omega, ?_⟩
    simpa [Nat.add_sub_cancel] using hall
  · rintro ⟨h1, h2, hall⟩
    refine ⟨n - 1, ⟨by omega, ?_⟩, by omega⟩
    simpa using hall

/-- C2 witness: on the one-page document `"Total Assets: 5,200"` with
keyword `"Assets"`, page 1 is matched, so by the theorem every keyword
occurs lowercased in the normalized page text. -/
theorem C2_witness :
    1 ≤ 1 ∧ 1 ≤ ([("Total  Assets: 5,200".toList)]).length ∧
      ∀ k ∈ [("Assets".toList)], ∃ l r,
        normalize_text ([("Total  Assets: 5,200".toList)].getD 0 []) =
          l ++ k.map Char.toLower ++ r :=
  (C2_mem_find_pages [("Total  Assets: 5,200".toList)] [("Assets".toList)]
    1).mp (by decide)

/-- C3: `contains_numbers_and_text` is true exactly when some cell of the
grid contains a decimal digit and some cell contains an ASCII letter; a grid
with no rows, or none of whose rows has a cell, yields false. -/
theorem C3_contains_numbers_and_text_spec (df : List (List (List Char))) :
    (contains_numbers_and_text df = true ↔
      (∃ row ∈ df, ∃ cell ∈ row, ∃ c ∈ cell, c.isDigit = true) ∧
      (∃ row ∈ df, ∃ cell ∈ row, ∃ c ∈ cell, c.isAlpha = true)) ∧
    ((df = [] ∨ ∀ row ∈ df, row = []) →
      contains_numbers_and_text df = false) := by
  refine ⟨contains_numbers_and_text_iff df, ?_⟩
  rintro (rfl | h)
  · rfl
  · have hA : (df.any fun row => row.any fun cell => cell.any Char.isDigit)
        = false := by
      rw [List.any_eq_false]
      intro row hr
      rw [h row hr]
      simp
    unfold contains_numbers_and_text
    rw [hA]
    rfl

/-- C3 witness: the theorem applied to the empty grid (zero rows) yields
false, and applied to the mixed grid `[["Region", "1,500"]]` yields true. -/
theorem C3_witness :
    contains_numbers_and_text [] = false ∧
    contains_numbers_and_text [["Region".toList, "1,500".toList]] = true :=
  ⟨(C3_contains_numbers_and_text_spec []).2 (Or.inl rfl),
    (C3_contains_numbers_and_text_spec
      [["Region".toList, "1,500".toList]]).1.mpr (by decide)⟩

/-- C4: with an empty keyword list, `find_pages_with_keywords` returns every
page number of the document — the list `[1, 2, ..., number of pages]` in
document order (each page vacuously satisfies "all of zero conditions"). -/
theorem C4_find_pages_empty_keywords (pages : List (List Char)) :
    find_pages_with_keywords pages [] = List.range' 1 pages.length := by
  unfold find_pages_with_keywords
  simp only [List.all_nil, List.filter_true]
  rw [List.range'_eq_map_range]
  simp [Nat.add_comm]

/-- C5: if every cell of the column, after comma removal and trimming,
parses as a number, then the whole column is replaced by the parsed numeric
values. -/
theorem C5_normalizeColumn_all_numeric (col : List (List Char))
    (h : ∀ s ∈ col, (parseNum (cleanCell s)).isSome = true) :
    normalizeColumn col =
      col.map (fun s => Value.num ((parseNum (cleanCell s)).getD 0)) := by
  unfold normalizeColumn
  apply List.map_congr_left
  intro s hs
  rcases hp : parseNum (cleanCell s) with _ | q
  · exact absurd (h s hs) (by simp [hp])
  · simp [hp]

/-- C5 witness: the theorem applied to `["1,200", "3,400", "500"]`, whose
cells all parse after cleaning, gives the numeric column
`[1200, 3400, 500]`. -/
theorem C5_witness :
    normalizeColumn ["1,200".toList, "3,400".toList, "500".toList] =
      [Value.num 1200, Value.num 3400, Value.num 500] := by
  rw [C5_normalizeColumn_all_numeric _ (by decide)]
  decide

/-- C6: the result of `find_pages_with_keywords` is strictly ascending (so
no page number repeats), and every returned page number is 1-based and at
most the page count. -/
theorem C6_find_pages_sorted (pages keywords : List (List Char)) :
    List.Pairwise (· < ·) (find_pages_with_keywords pages keywords) ∧
    (find_pages_with_keywords pages keywords).Nodup ∧
    ∀ n ∈ find_pages_with_keywords pages keywords, 1 ≤ n ∧ n ≤ pages.length := by
  have hp : List.Pairwise (· < ·) (find_pages_with_keywords pages keywords) := by
    unfold find_pages_with_keywords
    rw [List.pairwise_map]
    exact (List.pairwise_lt_range _).filter _ |>.imp (by omega)
  refine ⟨hp, hp.imp (fun h => Nat.ne_of_lt h), ?_⟩
  intro n hn
  unfold find_pages_with_keywords at hn
  simp only [List.mem_map, List.mem_filter, List.mem_range] at hn
  obtain ⟨i, ⟨hi, _⟩, rfl⟩ := hn
  omega

/-- C6 witness: applied to a two-page document with no keywords, page 2 is
in the result and the theorem bounds it by the page count. -/
theorem C6_witness :
    1 ≤ 2 ∧ 2 ≤ ([("a".toList), ("b".toList)]).length :=
  (C6_find_pages_sorted [("a".toList), ("b".toList)] []).2.2 2 (by decide)

/-- C7: `normalize_text` is idempotent — normalizing already-normalized text
is a no-op. -/
theorem C7_normalize_text_idem (t : List Char) :
    normalize_text (normalize_text t) = normalize_text t := by
  unfold normalize_text
  rw [map_toLower_joinSp, words_map_toLower t]
  have hmm : List.map (List.map Char.toLower)
      (List.map (List.map Char.toLower) (words t)) =
      List.map (List.map Char.toLower) (words t) := by
    rw [List.map_map]
    exact List.map_congr_left (fun w _ => map_map_toLower w)
  rw [hmm, ← words_map_toLower t]
  exact congrArg joinSp (words_joinSp _ (words_wf _))

/-- C8: appending the empty-string keyword changes nothing — the empty
string is a substring of every normalized page text, so it constrains no
page. -/
theorem C8_find_pages_append_empty_keyword
    (pages keywords : List (List Char)) :
    find_pages_with_keywords pages (keywords ++ [[]]) =
      find_pages_with_keywords pages keywords := by
  unfold find_pages_with_keywords
  congr 1
  apply List.filter_congr
  intro i _
  simp [List.all_append, hasSub_nil_true]

/-- C9: a string made only of whitespace characters normalizes to the empty
string, not to a single space. -/
theorem C9_normalize_text_all_ws (l : List Char)
    (h : ∀ c ∈ l, isWs c = true) : normalize_text l = [] := by
  unfold normalize_text
  rw [words_of_all_ws]
  · rfl
  · intro c hc
    rw [List.mem_map] at hc
    obtain ⟨c', hc', rfl⟩ := hc
    rw [isWs_toLower]
    exact h c' hc'

/-- C9 witness: the theorem applied to the whitespace-only string of a
space, a tab and a newline. -/
theorem C9_witness : normalize_text [' ', '\t', '\n'] = [] :=
  C9_normalize_text_all_ws [' ', '\t', '\n'] (by decide)

/-- C10: if some cell of the grid contains both a decimal digit and an ASCII
letter, the grid is accepted — the digit witness and the letter witness may
be the same cell. -/
theorem C10_single_cell_both (df : List (List (List Char)))
    (row : List (List Char)) (cell : List Char)
    (hrow : row ∈ df) (hcell : cell ∈ row)
    (hd : ∃ c ∈ cell, c.isDigit = true) (ha : ∃ c ∈ cell, c.isAlpha = true) :
    contains_numbers_and_text df = true :=
  (contains_numbers_and_text_iff df).mpr
    ⟨⟨row, hrow, cell, hcell, hd⟩, ⟨row, hrow, cell, hcell, ha⟩⟩

/-- C10 witness: the theorem applied to the single-cell grid `[["A1"]]`,
whose one cell holds both the letter A and the digit 1. -/
theorem C10_witness : contains_numbers_and_text [[("A1".toList)]] = true :=
  C10_single_cell_both [[("A1".toList)]] [("A1".toList)] ("A1".toList)
    (by decide) (by decide) (by decide) (by decide)

end PdfTry
